import Mathlib

/-!
Shallow embedding of the blobman content-addressed blob store, written from
the Rust sources in `src/blobman/src/`.  Byte values are modelled as `Nat`
(with `< 256` bounds or `% 2 ^ w` reductions stated where the machine width
matters), Rust `Vec`/slices as `List`, the `radix_trie::Trie` and
`std::collections::HashMap` by their key-value-map semantics as association
lists, and fallible Rust code by `Except`/`Option` results.  Rust panics are
modelled as a distinct `none` outcome where a claim depends on them.
-/

namespace Blobman

/-- Key-value lookup in an association list: the value of the first pair whose
key equals `k`.  Models `radix_trie::Trie::get` and `HashMap::get`. -/
def alookup {κ α : Type} [DecidableEq κ] : List (κ × α) → κ → Option α
  | [], _ => none
  | (k, v) :: rest, q => if k = q then some v else alookup rest q

/-- Key-value insertion in an association list: replace the value of the first
pair whose key equals `k`, or append a new pair at the end.  Models
`radix_trie::Trie::insert` and `HashMap` entry insertion. -/
def ainsert {κ α : Type} [DecidableEq κ] : List (κ × α) → κ → α → List (κ × α)
  | [], k, v => [(k, v)]
  | (k0, v0) :: rest, k, v =>
    if k0 = k then (k, v) :: rest else (k0, v0) :: ainsert rest k v

theorem alookup_ainsert_self {κ α : Type} [DecidableEq κ]
    (l : List (κ × α)) (k : κ) (v : α) : alookup (ainsert l k v) k = some v := by
  induction l with
  | nil => simp [ainsert, alookup]
  | cons p rest ih =>
    obtain ⟨k0, v0⟩ := p
    by_cases h : k0 = k
    · simp [ainsert, h, alookup]
    · simp [ainsert, h, alookup, ih]

theorem alookup_ainsert_ne {κ α : Type} [DecidableEq κ]
    (l : List (κ × α)) (k q : κ) (v : α) (hne : q ≠ k) :
    alookup (ainsert l k v) q = alookup l q := by
  have hkq : k ≠ q := fun h => hne h.symm
  induction l with
  | nil => simp [ainsert, alookup, hkq]
  | cons p rest ih =>
    obtain ⟨k0, v0⟩ := p
    by_cases h : k0 = k
    · subst h
      simp [ainsert, alookup, hkq]
    · simp [ainsert, h, alookup, ih]

/-! ## The digest / identifier table (`src/blobman/src/blobs.rs`)

`DigestData` is a 32-byte SHA-256 value; for the table its contents are
opaque, so it is modelled as a byte list.  `BlobId(usize)` is modelled as the
underlying `Nat`. -/

/-- The byte contents of a `DigestData([u8; 32])` value. -/
abbrev DigestData := List Nat

/-- `DigestTable { digests: Vec<DigestData>, digest_to_id: Trie<DigestData, BlobId> }`.
The trie field is renamed `digest_to_id_map` because in Lean the field may not
share the name of the method `digest_to_id`. -/
structure DigestTable where
  digests : List DigestData
  digest_to_id_map : List (DigestData × Nat)
  deriving DecidableEq

/-- `DigestTable::new()`: the empty table. -/
def DigestTable.new : DigestTable := ⟨[], []⟩

/-- `DigestTable::id_to_digest`: `&self.digests[id.0]`.  Rust indexing panics
when the id is out of range; the panic is modelled as `none`. -/
def DigestTable.id_to_digest (t : DigestTable) (id : Nat) : Option DigestData :=
  t.digests[id]?

/-- `DigestTable::digest_to_id`: return the trie's id for a known digest;
otherwise allocate the next id (the current length of `digests`), push the
digest, and record the new pair in the trie.  Returns the updated table
together with the id. -/
def DigestTable.digest_to_id (t : DigestTable) (digest : DigestData) :
    DigestTable × Nat :=
  match alookup t.digest_to_id_map digest with
  | some id => (t, id)
  | none =>
    let id := t.digests.length
    (⟨t.digests ++ [digest], ainsert t.digest_to_id_map digest id⟩, id)

/-- The states a `DigestTable` can reach from `new()` by `digest_to_id` calls. -/
inductive DigestTable.Reachable : DigestTable → Prop
  | new : DigestTable.Reachable DigestTable.new
  | step (t : DigestTable) (d : DigestData) :
      DigestTable.Reachable t → DigestTable.Reachable (t.digest_to_id d).1

/-- Table coherence: the trie maps a digest to an id exactly when the digest
vector stores that digest at that index. -/
def DigestTable.Inv (t : DigestTable) : Prop :=
  ∀ d i, alookup t.digest_to_id_map d = some i ↔ t.digests[i]? = some d

theorem DigestTable.inv_new : DigestTable.Inv DigestTable.new := by
  intro d i
  simp [DigestTable.new, alookup]

theorem DigestTable.inv_step (t : DigestTable) (d : DigestData) (h : t.Inv) :
    (t.digest_to_id d).1.Inv := by
  unfold DigestTable.digest_to_id
  cases hl : alookup t.digest_to_id_map d with
  | some id => exact h
  | none =>
    intro d' i
    simp only
    by_cases hd : d' = d
    · subst hd
      constructor
      · intro hsome
        rw [alookup_ainsert_self] at hsome
        obtain rfl : t.digests.length = i := by injection hsome
        simp
      · intro hget
        rcases Nat.lt_trichotomy i t.digests.length with hlt | heq | hgt
        · rw [List.getElem?_append_left hlt] at hget
          exact absurd ((h _ i).mpr hget) (by simp [hl])
        · subst heq
          rw [alookup_ainsert_self]
        · exfalso
          have hlen := (List.getElem?_eq_some_iff.mp hget).1
          simp at hlen
          omega
    · rw [alookup_ainsert_ne _ _ _ _ hd]
      rw [h d' i]
      constructor
      · intro hget
        have hlt : i < t.digests.length := (List.getElem?_eq_some_iff.mp hget).1
        rw [List.getElem?_append_left hlt]
        exact hget
      · intro hget
        have hlt : i < (t.digests ++ [d]).length := (List.getElem?_eq_some_iff.mp hget).1
        simp only [List.length_append, List.length_singleton] at hlt
        rcases Nat.lt_trichotomy i t.digests.length with h1 | h1 | h1
        · rw [List.getElem?_append_left h1] at hget
          exact hget
        · exfalso
          subst h1
          rw [List.getElem?_concat_length] at hget
          exact hd (by injection hget with h2; exact h2.symm)
        · omega

theorem DigestTable.reachable_inv {t : DigestTable} (h : t.Reachable) : t.Inv := by
  induction h with
  | new => exact DigestTable.inv_new
  | step t d _ ih => exact DigestTable.inv_step t d ih

/-- After a `digest_to_id` call, the trie maps the digest to the returned id. -/
theorem DigestTable.lookup_after_digest_to_id (t : DigestTable) (d : DigestData) :
    alookup (t.digest_to_id d).1.digest_to_id_map d = some (t.digest_to_id d).2 := by
  unfold DigestTable.digest_to_id
  cases hl : alookup t.digest_to_id_map d with
  | some id => exact hl
  | none => exact alookup_ainsert_self _ _ _

/-- A `digest_to_id` call whose digest is already in the trie changes nothing. -/
theorem DigestTable.digest_to_id_hit (t : DigestTable) (d : DigestData) (i : Nat)
    (h : alookup t.digest_to_id_map d = some i) : t.digest_to_id d = (t, i) := by
  unfold DigestTable.digest_to_id
  rw [h]

/-- `digest_to_id` never removes or reassigns an existing trie mapping. -/
theorem DigestTable.digest_to_id_preserves_lookup (t : DigestTable)
    (d0 : DigestData) (i : Nat) (h : alookup t.digest_to_id_map d0 = some i)
    (d : DigestData) : alookup (t.digest_to_id d).1.digest_to_id_map d0 = some i := by
  unfold DigestTable.digest_to_id
  cases hl : alookup t.digest_to_id_map d with
  | some id => exact h
  | none =>
    have hne : d0 ≠ d := by
      intro he
      rw [he, hl] at h
      cases h
    simp only
    rw [alookup_ainsert_ne _ _ _ _ hne]
    exact h

/-- `digest_to_id` never changes an already-stored digest vector entry. -/
theorem DigestTable.digest_to_id_preserves_id_to_digest (t : DigestTable)
    (i : Nat) (d0 : DigestData) (h : t.id_to_digest i = some d0)
    (d : DigestData) : (t.digest_to_id d).1.id_to_digest i = some d0 := by
  unfold DigestTable.digest_to_id DigestTable.id_to_digest at *
  cases hl : alookup t.digest_to_id_map d with
  | some id => exact h
  | none =>
    have hlt : i < t.digests.length := (List.getElem?_eq_some_iff.mp h).1
    simp only
    rw [List.getElem?_append_left hlt]
    exact h

/-- Claim C2: on every reachable `DigestTable`, `digest_to_id` is idempotent —
a repeated call with the same digest returns the same identifier and leaves
the table unchanged — and `id_to_digest` inverts it: looking up the returned
identifier yields the digest back. -/
theorem digest_to_id_idempotent_and_inverted (t : DigestTable)
    (h : t.Reachable) (d : DigestData) :
    ((t.digest_to_id d).1.digest_to_id d).2 = (t.digest_to_id d).2 ∧
    ((t.digest_to_id d).1.digest_to_id d).1 = (t.digest_to_id d).1 ∧
    (t.digest_to_id d).1.id_to_digest (t.digest_to_id d).2 = some d := by
  have hl := DigestTable.lookup_after_digest_to_id t d
  have hhit := DigestTable.digest_to_id_hit _ _ _ hl
  have hinv : (t.digest_to_id d).1.Inv :=
    DigestTable.reachable_inv (DigestTable.Reachable.step t d h)
  refine ⟨?_, ?_, ?_⟩
  · rw [hhit]
  · rw [hhit]
  · exact (hinv d (t.digest_to_id d).2).mp hl

theorem digest_to_id_idempotent_and_inverted_witness :
    DigestTable.Reachable DigestTable.new ∧
    (((DigestTable.new.digest_to_id [3]).1.digest_to_id [3]).2 =
        (DigestTable.new.digest_to_id [3]).2 ∧
      ((DigestTable.new.digest_to_id [3]).1.digest_to_id [3]).1 =
        (DigestTable.new.digest_to_id [3]).1 ∧
      (DigestTable.new.digest_to_id [3]).1.id_to_digest
          (DigestTable.new.digest_to_id [3]).2 = some [3]) :=
  ⟨DigestTable.Reachable.new,
    digest_to_id_idempotent_and_inverted DigestTable.new DigestTable.Reachable.new [3]⟩

/-- Claim C3: the `DigestTable` keeps an append-only bijection between digests
and identifiers: an assigned trie mapping survives any later `digest_to_id`
call unchanged, as does every stored digest entry; a `digest_to_id` call on a
digest absent from the trie allocates the next sequential identifier, equal to
the current number of recorded digests; and on every reachable table the
digest-to-id and id-to-digest directions are mutually inverse (a bijection
between the recorded digests and their identifiers). -/
theorem digest_table_append_only_bijection (t : DigestTable) (h : t.Reachable)
    (d d' : DigestData) (i : Nat) :
    (alookup t.digest_to_id_map d = some i →
      alookup (t.digest_to_id d').1.digest_to_id_map d = some i) ∧
    (t.id_to_digest i = some d → (t.digest_to_id d').1.id_to_digest i = some d) ∧
    (alookup t.digest_to_id_map d' = none →
      (t.digest_to_id d').2 = t.digests.length) ∧
    (alookup t.digest_to_id_map d = some i ↔ t.id_to_digest i = some d) := by
  refine ⟨?_, ?_, ?_, ?_⟩
  · intro hs
    exact DigestTable.digest_to_id_preserves_lookup t d i hs d'
  · intro hs
    exact DigestTable.digest_to_id_preserves_id_to_digest t i d hs d'
  · intro hn
    unfold DigestTable.digest_to_id
    rw [hn]
  · exact DigestTable.reachable_inv h d i

theorem digest_table_append_only_bijection_witness :
    DigestTable.Reachable (DigestTable.new.digest_to_id [1]).1 ∧
    alookup (DigestTable.new.digest_to_id [1]).1.digest_to_id_map [1] = some 0 ∧
    alookup (((DigestTable.new.digest_to_id [1]).1.digest_to_id [2]).1).digest_to_id_map
      [1] = some 0 ∧
    alookup (DigestTable.new.digest_to_id [1]).1.digest_to_id_map [2] = none ∧
    ((DigestTable.new.digest_to_id [1]).1.digest_to_id [2]).2 = 1 :=
  have hreach : DigestTable.Reachable (DigestTable.new.digest_to_id [1]).1 :=
    DigestTable.Reachable.step DigestTable.new [1] DigestTable.Reachable.new
  have hmem : alookup (DigestTable.new.digest_to_id [1]).1.digest_to_id_map [1] =
      some 0 := by decide
  have hnone : alookup (DigestTable.new.digest_to_id [1]).1.digest_to_id_map [2] =
      none := by decide
  have happ := digest_table_append_only_bijection
    (DigestTable.new.digest_to_id [1]).1 hreach [1] [2] 0
  ⟨hreach, hmem, happ.1 hmem, hnone, by
    have h3 := happ.2.2.1 hnone
    simpa using h3⟩

/-! ## Hex digests (`src/blobman/src/digest.rs`)

Rust `&str` values are modelled as `List Char` (Unicode scalar values); the
byte length of the UTF-8 encoding and the char-boundary behaviour of slicing
are modelled explicitly, because `hex_to_bytes` slices at fixed byte offsets
and Rust slicing panics off a character boundary.  A panic is modelled as the
`none` outcome of an `Option`-valued result. -/

/-- Error values relevant to the digest module: `ErrorKind::BadLength(expected,
actual)` from `hex_to_bytes`, and the wrapped `core::num::ParseIntError` from
`u8::from_str_radix`. -/
inductive BmError where
  | badLength (expected actual : Nat)
  | parseInt
  | ioError (code : Nat)
  deriving DecidableEq

instance {ε α : Type} [DecidableEq ε] [DecidableEq α] : DecidableEq (Except ε α) :=


  fun a b =>
  match a, b with
  | Except.ok x, Except.ok y =>
    if h : x = y then isTrue (by rw [h])
    else isFalse (by intro hc; cases hc; exact h rfl)
  | Except.error x, Except.error y =>
    if h : x = y then isTrue (by rw [h])
    else isFalse (by intro hc; cases hc; exact h rfl)
  | Except.ok _, Except.error _ => isFalse (by intro hc; cases hc)
  | Except.error _, Except.ok _ => isFalse (by intro hc; cases hc)

/-- The number of bytes of the UTF-8 encoding of one character. -/
def charUtf8Size (c : Char) : Nat :=
  if c.toNat < 128 then 1
  else if c.toNat < 2048 then 2
  else if c.toNat < 65536 then 3
  else 4

/-- `str::len()`: the byte length of the UTF-8 encoding. -/
def utf8Len (s : List Char) : Nat := (s.map charUtf8Size).sum

/-- The lowercase hex digit characters produced by `format!("{:02x}", b)`. -/
def hexDigitChar : Nat → Char
  | 0 => '0' | 1 => '1' | 2 => '2' | 3 => '3' | 4 => '4'
  | 5 => '5' | 6 => '6' | 7 => '7' | 8 => '8' | 9 => '9'
  | 10 => 'a' | 11 => 'b' | 12 => 'c' | 13 => 'd' | 14 => 'e' | 15 => 'f'
  | _ => '*'

/-- `bytes_to_hex`: each byte (a `u8`, so `< 256`) becomes its two lowercase
hex digits, concatenated in order. -/
def bytes_to_hex : List Nat → List Char
  | [] => []
  | b :: rest => hexDigitChar (b / 16) :: hexDigitChar (b % 16) :: bytes_to_hex rest

/-- Split a character list after exactly `n` UTF-8 bytes.  `none` when `n`
overruns the string or falls strictly inside a character's encoding — the
cases in which Rust byte-slicing panics. -/
def takeBytes : List Char → Nat → Option (List Char × List Char)
  | rest, 0 => some ([], rest)
  | [], _ + 1 => none
  | c :: cs, n + 1 =>
    if charUtf8Size c ≤ n + 1 then
      match takeBytes cs (n + 1 - charUtf8Size c) with
      | some (pre, post) => some (c :: pre, post)
      | none => none
    else none

/-- Rust `&text[a..b]` on a `str`: the characters between byte offsets `a` and
`b`; `none` models the slicing panic (reversed range, out of range, or an
offset off a character boundary). -/
def sliceStr (s : List Char) (a b : Nat) : Option (List Char) :=
  if a ≤ b then
    match takeBytes s a with
    | none => none
    | some (_, rest) =>
      match takeBytes rest (b - a) with
      | none => none
      | some (mid, _) => some mid
  else none

/-- `char::to_digit(16)`: the value of one hex digit (upper or lower case). -/
def hexDigitVal (c : Char) : Option Nat :=
  if 48 ≤ c.toNat ∧ c.toNat ≤ 57 then some (c.toNat - 48)
  else if 97 ≤ c.toNat ∧ c.toNat ≤ 102 then some (c.toNat - 87)
  else if 65 ≤ c.toNat ∧ c.toNat ≤ 70 then some (c.toNat - 55)
  else none

/-- The digit-accumulation loop of `u8::from_str_radix(s, 16)`: left to right,
`acc = acc * 16 + digit`, failing on a non-digit or on overflow past `u8::MAX`. -/
def parseHexDigits : List Char → Nat → Except BmError Nat
  | [], acc => Except.ok acc
  | c :: cs, acc =>
    match hexDigitVal c with
    | some dv =>
      if acc * 16 + dv ≤ 255 then parseHexDigits cs (acc * 16 + dv)
      else Except.error BmError.parseInt
    | none => Except.error BmError.parseInt

/-- `u8::from_str_radix(s, 16)`: an empty string fails; one leading `+` is
accepted when digits follow; a `-` is not stripped for an unsigned target and
fails as an invalid digit. -/
def u8_from_str_radix_16 (s : List Char) : Except BmError Nat :=
  match s with
  | [] => Except.error BmError.parseInt
  | c :: rest =>
    if c = '+' then
      match rest with
      | [] => Except.error BmError.parseInt
      | _ => parseHexDigits rest 0
    else parseHexDigits (c :: rest) 0

/-- The `for i in 0..n` loop body of `hex_to_bytes`, starting at index `i`
with `k` indices left: slice `text[2i .. 2i+2]` (`none` models the Rust
slicing panic), parse it with `u8::from_str_radix(_, 16)`, propagating the
first error, and collect the decoded bytes. -/
def hexToBytesGo (text : List Char) : Nat → Nat → Option (Except BmError (List Nat))
  | _, 0 => some (Except.ok [])
  | i, k + 1 =>
    match sliceStr text (2 * i) (2 * i + 2) with
    | none => none
    | some sl =>
      match u8_from_str_radix_16 sl with
      | Except.error e => some (Except.error e)
      | Except.ok b =>
        match hexToBytesGo text (i + 1) k with
        | none => none
        | some (Except.error e) => some (Except.error e)
        | some (Except.ok bs) => some (Except.ok (b :: bs))

/-- `hex_to_bytes(text, dest)` with `n = dest.len()`: reject a byte length
other than `2 * n` with `BadLength(2 * n, text.len())`, then decode the `n`
two-character groups.  The outer `Option` is `none` when the Rust code
panics; on `some (ok bytes)` the decoded bytes are returned. -/
def hex_to_bytes (text : List Char) (n : Nat) : Option (Except BmError (List Nat)) :=
  if utf8Len text ≠ 2 * n then
    some (Except.error (BmError.badLength (2 * n) (utf8Len text)))
  else hexToBytesGo text 0 n

/-- `DigestData::from_str`: decode a 64-hex-character string into the 32
digest bytes via `hex_to_bytes`. -/
def DigestData.from_str (s : List Char) : Option (Except BmError DigestData) :=
  hex_to_bytes s 32

/-- `DigestData::to_string`: the lowercase hex form of the digest bytes. -/
def DigestData.to_string (d : DigestData) : List Char :=
  bytes_to_hex d

theorem charUtf8Size_hexDigitChar (n : Nat) : charUtf8Size (hexDigitChar n) = 1 := by
  unfold hexDigitChar
  split <;> decide

theorem bytes_to_hex_ascii (bs : List Nat) :
    ∀ c ∈ bytes_to_hex bs, charUtf8Size c = 1 := by
  induction bs with
  | nil => intro c hc; cases hc
  | cons b rest ih =>
    intro c hc
    simp only [bytes_to_hex, List.mem_cons] at hc
    rcases hc with rfl | rfl | hc
    · exact charUtf8Size_hexDigitChar _
    · exact charUtf8Size_hexDigitChar _
    · exact ih c hc

theorem bytes_to_hex_length (bs : List Nat) :
    (bytes_to_hex bs).length = 2 * bs.length := by
  induction bs with
  | nil => rfl
  | cons b rest ih =>
    simp only [bytes_to_hex, List.length_cons, ih]
    omega

theorem utf8Len_bytes_to_hex (bs : List Nat) :
    utf8Len (bytes_to_hex bs) = 2 * bs.length := by
  induction bs with
  | nil => rfl
  | cons b rest ih =>
    simp only [bytes_to_hex, utf8Len, List.map_cons, List.sum_cons,
      List.length_cons, charUtf8Size_hexDigitChar] at *
    omega

theorem takeBytes_ascii (s : List Char) (h : ∀ c ∈ s, charUtf8Size c = 1) :
    ∀ n : Nat, takeBytes s n =
      if n ≤ s.length then some (s.take n, s.drop n) else none := by
  induction s with
  | nil =>
    intro n
    cases n with
    | zero => rfl
    | succ m => rfl
  | cons c cs ih =>
    intro n
    cases n with
    | zero => rfl
    | succ m =>
      have hc : charUtf8Size c = 1 := h c (List.mem_cons_self c cs)
      have hcs : ∀ x ∈ cs, charUtf8Size x = 1 := fun x hx => h x (List.mem_cons_of_mem c hx)
      simp only [takeBytes, hc, Nat.add_sub_cancel]
      rw [if_pos (by omega : 1 ≤ m + 1)]
      rw [ih hcs m]
      by_cases hm : m ≤ cs.length
      · rw [if_pos hm, if_pos (by simp only [List.length_cons]; omega)]
        show some (c :: cs.take m, cs.drop m) =
          some ((c :: cs).take (m + 1), (c :: cs).drop (m + 1))
        rw [List.take_succ_cons, List.drop_succ_cons]
      · rw [if_neg hm, if_neg (by simp only [List.length_cons]; omega)]

theorem sliceStr_ascii (s : List Char) (h : ∀ c ∈ s, charUtf8Size c = 1)
    (a b : Nat) (hab : a ≤ b) (hb : b ≤ s.length) :
    sliceStr s a b = some ((s.drop a).take (b - a)) := by
  have hd : ∀ x ∈ s.drop a, charUtf8Size x = 1 := fun x hx => h x (List.mem_of_mem_drop hx)
  unfold sliceStr
  rw [if_pos hab, takeBytes_ascii s h a, if_pos (by omega)]
  show (match takeBytes (s.drop a) (b - a) with
        | none => none
        | some (mid, _) => some mid) = some ((s.drop a).take (b - a))
  rw [takeBytes_ascii _ hd (b - a), if_pos (by simp only [List.length_drop]; omega)]

theorem hexDigitVal_hexDigitChar (x : Nat) (hx : x < 16) :
    hexDigitVal (hexDigitChar x) = some x := by
  interval_cases x <;> decide

theorem hexDigitChar_ne_plus (x : Nat) (hx : x < 16) : hexDigitChar x ≠ '+' := by
  interval_cases x <;> decide

theorem u8_parse_hex_pair (b : Nat) (hb : b < 256) :
    u8_from_str_radix_16 [hexDigitChar (b / 16), hexDigitChar (b % 16)] =
      Except.ok b := by
  have h1 : b / 16 < 16 := Nat.div_lt_of_lt_mul (by omega)
  have h2 : b % 16 < 16 := Nat.mod_lt _ (by omega)
  show (if hexDigitChar (b / 16) = '+' then
          parseHexDigits [hexDigitChar (b % 16)] 0
        else parseHexDigits (hexDigitChar (b / 16) :: [hexDigitChar (b % 16)]) 0) =
      Except.ok b
  rw [if_neg (hexDigitChar_ne_plus _ h1)]
  simp only [parseHexDigits, hexDigitVal_hexDigitChar _ h1]
  rw [if_pos (show 0 * 16 + b / 16 ≤ 255 by omega)]
  simp only [parseHexDigits, hexDigitVal_hexDigitChar _ h2]
  rw [if_pos (show (0 * 16 + b / 16) * 16 + b % 16 ≤ 255 by omega)]
  congr 1
  omega

theorem hexToBytesGo_decodes (full : List Char) :
    ∀ (k i : Nat) (d : List Nat), (∀ c ∈ full, charUtf8Size c = 1) →
      full.length = 2 * (i + k) → full.drop (2 * i) = bytes_to_hex d →
      d.length = k → (∀ b ∈ d, b < 256) →
      hexToBytesGo full i k = some (Except.ok d) := by
  intro k
  induction k with
  | zero =>
    intro i d _ _ _ hdlen _
    obtain rfl : d = [] := List.eq_nil_of_length_eq_zero hdlen
    rfl
  | succ k ih =>
    intro i d hascii hlen hdrop hdlen hbound
    cases d with
    | nil => cases hdlen
    | cons b dtl =>
      have hb : b < 256 := hbound b (List.mem_cons_self b dtl)
      have hslice : sliceStr full (2 * i) (2 * i + 2) =
          some ((full.drop (2 * i)).take 2) := by
        have := sliceStr_ascii full hascii (2 * i) (2 * i + 2) (by omega) (by omega)
        simpa using this
      have htake : (bytes_to_hex (b :: dtl)).take 2 =
          [hexDigitChar (b / 16), hexDigitChar (b % 16)] := rfl
      have hrec : hexToBytesGo full (i + 1) k = some (Except.ok dtl) := by
        apply ih (i + 1) dtl hascii (by omega)
        · have hdd : full.drop (2 * (i + 1)) = (full.drop (2 * i)).drop 2 := by
            rw [List.drop_drop]
            ring_nf
          rw [hdd, hdrop]
          rfl
        · simpa using hdlen
        · exact fun x hx => hbound x (List.mem_cons_of_mem b hx)
      simp only [hexToBytesGo, hslice, hdrop, htake, u8_parse_hex_pair b hb, hrec]

/-- Claim C4: `DigestData::from_str` rejects every string whose byte length is
not exactly 64 with the length-mismatch error `BadLength(64, len)`, and for
every 32-byte digest value the lowercase-hex encoding produced by
`DigestData::to_string` decodes back to exactly the original bytes. -/
theorem digest_decode_length_and_roundtrip :
    (∀ s : List Char, utf8Len s ≠ 64 →
      DigestData.from_str s =
        some (Except.error (BmError.badLength 64 (utf8Len s)))) ∧
    (∀ d : DigestData, d.length = 32 → (∀ b ∈ d, b < 256) →
      DigestData.from_str (DigestData.to_string d) = some (Except.ok d)) := by
  constructor
  · intro s hs
    unfold DigestData.from_str hex_to_bytes
    rw [if_pos (by omega)]
  · intro d hdlen hbound
    unfold DigestData.from_str DigestData.to_string hex_to_bytes
    have hlen : utf8Len (bytes_to_hex d) = 64 := by
      rw [utf8Len_bytes_to_hex, hdlen]
    rw [if_neg (by omega)]
    exact hexToBytesGo_decodes (bytes_to_hex d) 32 0 d (bytes_to_hex_ascii d)
      (by rw [bytes_to_hex_length, hdlen]) (by simp) hdlen hbound

theorem digest_decode_length_and_roundtrip_witness :
    DigestData.from_str ['a', 'b'] =
      some (Except.error (BmError.badLength 64 (utf8Len ['a', 'b']))) ∧
    DigestData.from_str (DigestData.to_string (List.replicate 32 171)) =
      some (Except.ok (List.replicate 32 171)) :=
  ⟨digest_decode_length_and_roundtrip.1 ['a', 'b'] (by decide),
    digest_decode_length_and_roundtrip.2 (List.replicate 32 171) (by decide)
      (by decide)⟩

/-- Claim C10 concerns totality of digest decoding.  The code is not total: on
the 64-byte input `a é 0 … 0` (an `a`, a two-byte `é`, and sixty-one `0`s) the
length check passes, but the first loop iteration slices `&text[0..2]`, whose
upper offset falls inside the encoding of `é`, and Rust string slicing panics
there.  The model returns the panic marker `none` instead of any `Ok`/`Err`
value. -/
theorem from_str_panics_on_multibyte_boundary :
    DigestData.from_str ('a' :: 'é' :: List.replicate 61 '0') = none ∧
    utf8Len ('a' :: 'é' :: List.replicate 61 '0') = 64 := by
  constructor
  · rfl
  · rfl

/-! ## SHA-256

The storage engine hashes with the external `sha2` crate
(`digest::DigestComputer = sha2::Sha256`).  The crate is not part of this
repository, so the standard SHA-256 function is modelled here over `Nat`
words reduced modulo `2 ^ 32`; the model is checked below against the
published test digest of the five-byte input `hello`. -/

/-- Addition modulo `2 ^ 32`. -/
def add32 (a b : Nat) : Nat := (a + b) % 4294967296

/-- Right rotation of a 32-bit word by `k` bits (`0 < k < 32`). -/
def rotr32 (x k : Nat) : Nat := ((x >>> k) ||| (x <<< (32 - k))) % 4294967296

/-- Bitwise complement of a 32-bit word. -/
def not32 (x : Nat) : Nat := 4294967295 ^^^ x

def bigSigma0 (x : Nat) : Nat := rotr32 x 2 ^^^ rotr32 x 13 ^^^ rotr32 x 22

def bigSigma1 (x : Nat) : Nat := rotr32 x 6 ^^^ rotr32 x 11 ^^^ rotr32 x 25

def smallSigma0 (x : Nat) : Nat := rotr32 x 7 ^^^ rotr32 x 18 ^^^ (x >>> 3)

def smallSigma1 (x : Nat) : Nat := rotr32 x 17 ^^^ rotr32 x 19 ^^^ (x >>> 10)

def ch (e f g : Nat) : Nat := (e &&& f) ^^^ (not32 e &&& g)

def maj (a b c : Nat) : Nat := (a &&& b) ^^^ (a &&& c) ^^^ (b &&& c)

/-- The 64 SHA-256 round constants (decimal). -/
def shaK : List Nat :=
  [1116352408, 1899447441, 3049323471, 3921009573, 961987163,
   1508970993, 2453635748, 2870763221, 3624381080, 310598401,
   607225278, 1426881987, 1925078388, 2162078206, 2614888103,
   3248222580, 3835390401, 4022224774, 264347078, 604807628,
   770255983, 1249150122, 1555081692, 1996064986, 2554220882,
   2821834349, 2952996808, 3210313671, 3336571891, 3584528711,
   113926993, 338241895, 666307205, 773529912, 1294757372,
   1396182291, 1695183700, 1986661051, 2177026350, 2456956037,
   2730485921, 2820302411, 3259730800, 3345764771, 3516065817,
   3600352804, 4094571909, 275423344, 430227734, 506948616,
   659060556, 883997877, 958139571, 1322822218, 1537002063,
   1747873779, 1955562222, 2024104815, 2227730452, 2361852424,
   2428436474, 2756734187, 3204031479, 3329325298]

/-- The SHA-256 initial hash state (decimal). -/
def shaH0 : List Nat :=
  [1779033703, 3144134277, 1013904242, 2773480762, 1359893119,
   2600822924, 528734635, 1541459225]

/-- The lowest `8 * k` bits of `n` as `k` bytes, big-endian. -/
def natToBytesBE : Nat → Nat → List Nat
  | 0, _ => []
  | k + 1, n => natToBytesBE k (n / 256) ++ [n % 256]

/-- Big-endian grouping of bytes into 32-bit words. -/
def bytesToWordsBE : List Nat → List Nat
  | b0 :: b1 :: b2 :: b3 :: rest =>
    (((b0 * 256 + b1) * 256 + b2) * 256 + b3) :: bytesToWordsBE rest
  | _ => []

/-- SHA-256 padding: append `0x80`, zeros to 56 mod 64, and the 64-bit
big-endian bit length. -/
def shaPad (msg : List Nat) : List Nat :=
  msg ++ 128 :: List.replicate ((119 - msg.length % 64) % 64) 0
    ++ natToBytesBE 8 (8 * msg.length)

/-- Split a byte list into successive 64-byte blocks; the fuel argument (any
bound on the list length) keeps the recursion structural. -/
def toBlocksGo : Nat → List Nat → List (List Nat)
  | 0, _ => []
  | _ + 1, [] => []
  | fuel + 1, l => l.take 64 :: toBlocksGo fuel (l.drop 64)

/-- One message-schedule extension step: append
`σ1(w[n-2]) + w[n-7] + σ0(w[n-15]) + w[n-16]` modulo `2 ^ 32`. -/
def scheduleStep (w : List Nat) : List Nat :=
  w ++ [(smallSigma1 (w.getD (w.length - 2) 0) + w.getD (w.length - 7) 0 +
    smallSigma0 (w.getD (w.length - 15) 0) + w.getD (w.length - 16) 0) % 4294967296]

/-- Extend the 16 block words to the 64 schedule words. -/
def schedule (w16 : List Nat) : List Nat :=
  (List.range 48).foldl (fun w _ => scheduleStep w) w16

/-- One SHA-256 compression round on the state `[a,b,c,d,e,f,g,h]` with the
pair `(w, k)` of schedule word and round constant. -/
def compressStep (st : List Nat) (wk : Nat × Nat) : List Nat :=
  match st with
  | [a, b, c, d, e, f, g, h] =>
    let t1 := (h + bigSigma1 e + ch e f g + wk.2 + wk.1) % 4294967296
    let t2 := (bigSigma0 a + maj a b c) % 4294967296
    [add32 t1 t2, a, b, c, add32 d t1, e, f, g]
  | other => other

/-- Process one 64-byte block: 64 compression rounds, then add the round
output into the incoming state. -/
def processBlock (h : List Nat) (block : List Nat) : List Nat :=
  let w := schedule (bytesToWordsBE block)
  let final := (w.zip shaK).foldl compressStep h
  List.zipWith add32 h final

/-- SHA-256 of a byte sequence, as its 32 digest bytes. -/
def sha256 (msg : List Nat) : List Nat :=
  let padded := shaPad msg
  (((toBlocksGo padded.length padded).foldl processBlock shaH0).map
    (natToBytesBE 4)).flatten

/-! ## The filesystem storage engine (`src/blobman/src/storage/filesystem.rs`)

`ingest` drains an `AsyncChunks` source into a staging temp file while
accumulating the running SHA-256 state and the total size (a `u64`, hence the
`% 2 ^ 64`), then renames the staging file onto the digest's canonical
two-level path and returns `(total_size, digest)`.  A source is modelled by
the finite trace of its `get_chunk` results: `chunk data` for `Ok(Some(data))`,
`done` for `Ok(None)`, `fail e` for `Err(e)`.  An exhausted trace behaves
like `done`.  The store models the committed canonical paths only; the
staging temp file (`staging.XXXXXXXX`) lives outside it and never appears
among committed paths. -/

/-- One `source.get_chunk().await` result. -/
inductive PullOutcome where
  | chunk (data : List Nat)
  | done
  | fail (e : BmError)
  deriving DecidableEq

/-- The mutable loop state of `ingest`: `total_size` (a `u64`), the bytes fed
to the `DigestComputer`, and the bytes written to the staging temp file. -/
structure IngestState where
  total_size : Nat
  computer : List Nat
  tempfile : List Nat
  deriving DecidableEq

/-- The `while let Some(data) = source.get_chunk().await?` loop: each chunk
adds its length to `total_size` (wrapping as `u64`), is fed to the hash
accumulator, and is appended to the staging file; `Err` aborts via `?`. -/
def ingestPulls : List PullOutcome → IngestState → Except BmError IngestState
  | [], st => Except.ok st
  | PullOutcome.done :: _, st => Except.ok st
  | PullOutcome.fail e :: _, _ => Except.error e
  | PullOutcome.chunk data :: rest, st =>
    ingestPulls rest ⟨(st.total_size + data.length) % 18446744073709551616,
      st.computer ++ data, st.tempfile ++ data⟩

/-- `DigestData::create_two_part_path`: subdirectory named by the hex of the
first digest byte, file named by the hex of the remaining bytes. -/
def DigestData.create_two_part_path (d : DigestData) : List Char × List Char :=
  (bytes_to_hex (d.take 1), bytes_to_hex (d.drop 1))

/-- The committed content of the storage root: finished canonical two-level
paths mapped to the blob bytes stored there. -/
abbrev BlobStore := List ((List Char × List Char) × List Nat)

/-- `FilesystemStorage::ingest`: run the chunk loop into a fresh staging
state; on an error the call aborts before any rename, leaving the committed
store untouched; on success the digest is finalized, the staging file is
renamed onto the digest's canonical two-part path (replacing any file already
there), and `(total_size, digest)` is returned. -/
def FilesystemStorage.ingest (store : BlobStore) (pulls : List PullOutcome) :
    BlobStore × Except BmError (Nat × DigestData) :=
  match ingestPulls pulls ⟨0, [], []⟩ with
  | Except.error e => (store, Except.error e)
  | Except.ok st =>
    let digest := sha256 st.computer
    (ainsert store (DigestData.create_two_part_path digest) st.tempfile,
      Except.ok (st.total_size, digest))

theorem ingestPulls_chunks (chunks : List (List Nat)) :
    ∀ st : IngestState,
      st.total_size + (chunks.map List.length).sum < 18446744073709551616 →
      ingestPulls (chunks.map PullOutcome.chunk ++ [PullOutcome.done]) st =
        Except.ok ⟨st.total_size + (chunks.map List.length).sum,
          st.computer ++ chunks.flatten, st.tempfile ++ chunks.flatten⟩ := by
  induction chunks with
  | nil =>
    intro st _
    simp [ingestPulls]
  | cons l ls ih =>
    intro st hb
    simp only [List.map_cons, List.sum_cons] at hb
    simp only [List.map_cons, List.cons_append, ingestPulls, List.append_eq]
    rw [Nat.mod_eq_of_lt (by omega)]
    rw [ih ⟨st.total_size + l.length, st.computer ++ l, st.tempfile ++ l⟩ (by simpa using by omega)]
    simp only [List.map_cons, List.sum_cons, List.flatten_cons, List.append_assoc]
    congr 2
    omega

theorem ingestPulls_error (pre : List (List Nat)) (e : BmError)
    (rest : List PullOutcome) :
    ∀ st : IngestState,
      ingestPulls (pre.map PullOutcome.chunk ++ PullOutcome.fail e :: rest) st =
        Except.error e := by
  induction pre with
  | nil => intro st; rfl
  | cons l ls ih =>
    intro st
    simp only [List.map_cons, List.cons_append, ingestPulls]
    exact ih _

/-- Claim C1: a successful ingest of a finite chunk sequence returns the sum
of the chunk lengths as the size (the sum being below `2 ^ 64`, the `u64`
accumulator does not wrap) and the SHA-256 digest of the chunk concatenation;
the result does not depend on the prior store contents, so re-ingesting the
same chunks yields the identical size and digest; and the digest of the
five-byte sequence `hello` is the standard SHA-256 value
`2cf24dba…938b9824`, so ingesting `hello` yields size 5 and that digest. -/
theorem ingest_sums_and_hashes :
    (∀ (store : BlobStore) (chunks : List (List Nat)),
      (chunks.map List.length).sum < 18446744073709551616 →
      (FilesystemStorage.ingest store
          (chunks.map PullOutcome.chunk ++ [PullOutcome.done])).2 =
        Except.ok ((chunks.map List.length).sum, sha256 chunks.flatten)) ∧
    (∀ (s1 s2 : BlobStore) (pulls : List PullOutcome),
      (FilesystemStorage.ingest s1 pulls).2 = (FilesystemStorage.ingest s2 pulls).2) ∧
    sha256 [104, 101, 108, 108, 111] =
      [44, 242, 77, 186, 95, 176, 163, 14, 38, 232, 59, 42, 197, 185, 226, 158,
       27, 22, 30, 92, 31, 167, 66, 94, 115, 4, 51, 98, 147, 139, 152, 36] := by
  refine ⟨?_, ?_, ?_⟩
  · intro store chunks hb
    unfold FilesystemStorage.ingest
    rw [ingestPulls_chunks chunks ⟨0, [], []⟩ (by simpa using hb)]
    simp
  · intro s1 s2 pulls
    unfold FilesystemStorage.ingest
    cases ingestPulls pulls ⟨0, [], []⟩ <;> rfl
  · decide

theorem ingest_sums_and_hashes_witness :
    (FilesystemStorage.ingest []
        ([[104, 101, 108, 108, 111]].map PullOutcome.chunk ++ [PullOutcome.done])).2 =
      Except.ok (([[104, 101, 108, 108, 111]].map List.length).sum,
        sha256 [[104, 101, 108, 108, 111]].flatten) :=
  ingest_sums_and_hashes.1 [] [[104, 101, 108, 108, 111]] (by decide)

/-- Claim C5: if any `get_chunk` pull fails during ingest — after any number
of successfully delivered chunks — the call returns exactly that error with
no digest, and the committed store (the canonical two-level paths) is
returned unchanged: nothing is committed, and only the staging artifact
(outside the committed store) can remain. -/
theorem ingest_error_atomicity :
    ∀ (store : BlobStore) (pre : List (List Nat)) (e : BmError)
      (rest : List PullOutcome),
      FilesystemStorage.ingest store
          (pre.map PullOutcome.chunk ++ PullOutcome.fail e :: rest) =
        (store, Except.error e) := by
  intro store pre e rest
  unfold FilesystemStorage.ingest
  rw [ingestPulls_error pre e rest ⟨0, [], []⟩]

/-! ## Collections (`src/blobman/src/collection.rs`)

`toml::value::Table` metadata is opaque to every operation modelled here (it
is only cloned and moved), so it is modelled as a list of key/value pairs of
strings. -/

/-- Free-form `toml::value::Table` metadata. -/
abbrev Table := List (String × String)

/-- `AnyRetrieval`, the closed enumeration of retrieval strategies.  The only
variant is `Url(UrlRetrieval)` and `UrlRetrieval` is a field-less struct, so
the enumeration also describes the possible contents of a runtime
`Box<dyn Retrieval + Send>`. -/
inductive AnyRetrieval where
  | url
  deriving DecidableEq

/-- `AnyRetrieval::boxify`: unwrap the tagged value into the boxed runtime
strategy (`Url(retr) => Box::new(retr)`). -/
def AnyRetrieval.boxify (r : AnyRetrieval) : AnyRetrieval := r

/-- `Retrieval::clone_any` for `UrlRetrieval`: wrap a clone of the runtime
strategy back into the tagged enumeration (`AnyRetrieval::Url(self.clone())`). -/
def Retrieval.clone_any (r : AnyRetrieval) : AnyRetrieval := r

/-- An `Item`: runtime `BlobId`, blob size (`u64`), and extra metadata. -/
structure Item where
  id : Nat
  size : Nat
  extra : Table
  deriving DecidableEq

/-- A runtime `Collection`. -/
structure Collection where
  name : String
  keys : List String
  retrieval : AnyRetrieval
  items : List Item
  metadata : Table
  deriving DecidableEq

/-- A `SerdeItem`: persisted digest in place of the runtime id. -/
structure SerdeItem where
  digest : DigestData
  size : Nat
  extra : Table
  deriving DecidableEq

/-- A `SerdeCollection`: the persisted form of a `Collection`. -/
structure SerdeCollection where
  name : String
  keys : List String
  retrieval : AnyRetrieval
  item : List SerdeItem
  metadata : Table
  deriving DecidableEq

/-- `Item::clone_serde`: translate the runtime id back to its digest through
the table.  `dtable.id_to_digest(self.id)` panics on an id the table never
produced; the panic is modelled as `none`. -/
def Item.clone_serde (i : Item) (dtable : DigestTable) : Option SerdeItem :=
  match dtable.id_to_digest i.id with
  | some d => some ⟨d, i.size, i.extra⟩
  | none => none

/-- The `self.items.iter().map(|i| i.clone_serde(dtable)).collect()` pass of
`Collection::clone_serde`, covering every item in order. -/
def cloneSerdeItems : List Item → DigestTable → Option (List SerdeItem)
  | [], _ => some []
  | i :: rest, t =>
    match i.clone_serde t with
    | none => none
    | some si =>
      match cloneSerdeItems rest t with
      | none => none
      | some sis => some (si :: sis)

/-- `Collection::clone_serde`: clone the collection into its persisted form,
translating every item id to a digest. -/
def Collection.clone_serde (c : Collection) (dtable : DigestTable) :
    Option SerdeCollection :=
  match cloneSerdeItems c.items dtable with
  | some its =>
    some ⟨c.name, c.keys, Retrieval.clone_any c.retrieval, its, c.metadata⟩
  | none => none

/-- `SerdeItem::into_runtime`: re-intern the persisted digest, obtaining a
(possibly new) id from the mutable table. -/
def SerdeItem.into_runtime (s : SerdeItem) (dtable : DigestTable) :
    DigestTable × Item :=
  ((dtable.digest_to_id s.digest).1,
    ⟨(dtable.digest_to_id s.digest).2, s.size, s.extra⟩)

/-- The `self.item.drain(..).map(|i| i.into_runtime(dtable)).collect()` pass
of `SerdeCollection::into_runtime`, threading the mutable table left to
right over every item. -/
def intoRuntimeItems : List SerdeItem → DigestTable → DigestTable × List Item
  | [], t => (t, [])
  | s :: rest, t =>
    ((intoRuntimeItems rest (s.into_runtime t).1).1,
      (s.into_runtime t).2 :: (intoRuntimeItems rest (s.into_runtime t).1).2)

/-- `SerdeCollection::into_runtime`: rebuild the runtime collection,
re-interning every item digest into the table. -/
def SerdeCollection.into_runtime (sc : SerdeCollection) (dtable : DigestTable) :
    DigestTable × Collection :=
  ((intoRuntimeItems sc.item dtable).1,
    ⟨sc.name, sc.keys, AnyRetrieval.boxify sc.retrieval,
      (intoRuntimeItems sc.item dtable).2, sc.metadata⟩)

/-- Serde serializes a `Vec` element by element in storage order: the `item`
array a `SerdeCollection` emits is exactly its in-memory vector. -/
def SerdeCollection.serializedItems (sc : SerdeCollection) : List SerdeItem :=
  sc.item

/-! ## The manifest (`src/blobman/src/manifest.rs`) -/

/-- `BlobInfo { size: u64, sha256: DigestData, url: Option<String> }`. -/
structure BlobInfo where
  size : Nat
  sha256 : DigestData
  url : Option String
  deriving DecidableEq

/-- The observable `bm_note!` notifications of `insert_or_update`. -/
inductive ManifestNote where
  | updating (name : String)
  | unchanged (name : String)
  deriving DecidableEq

/-- `serialize_map_sorted`: iterating the `BTreeMap` collected from the
manifest's `HashMap` emits the entries in ascending key order; modelled by
sorting the entry list by key. -/
def serialize_map_sorted (value : List (String × BlobInfo)) :
    List (String × BlobInfo) :=
  List.insertionSort (fun a b => a.1 ≤ b.1) value

/-- `Manifest::insert_or_update`: name-keyed upsert on the `blobs` map.  On an
occupied entry the new info replaces the old and one note is emitted —
`updating` when the content differs, `unchanged` when it is equal; on a
vacant entry the info is inserted with no note. -/
def Manifest.insert_or_update (blobs : List (String × BlobInfo)) (name : String)
    (binfo : BlobInfo) : List (String × BlobInfo) × List ManifestNote :=
  match alookup blobs name with
  | some old =>
    (ainsert blobs name binfo,
      [if old ≠ binfo then ManifestNote.updating name
       else ManifestNote.unchanged name])
  | none => (ainsert blobs name binfo, [])

/-- The upward search loop of `Manifest::find`, with the remaining directory
components in reverse order (innermost first).  The filesystem is modelled as
a map from absolute directories (component lists from the root) to the parsed
contents of the `.blobs.toml` they contain; the reported path is modelled by
the directory of the hit.  At each step the loop opens `dir/.blobs.toml` and
returns its parsed contents on a hit; reaching the filesystem root without a
hit returns the empty manifest with no path (and creates no file). -/
def findGo (fs : List (List String × List (String × BlobInfo))) :
    List String → List (String × BlobInfo) × Option (List String)
  | [] =>
    match alookup fs [] with
    | some m => (m, some [])
    | none => ([], none)
  | c :: rest =>
    match alookup fs (c :: rest).reverse with
    | some m => (m, some (c :: rest).reverse)
    | none => findGo fs rest

/-- `Manifest::find`, started from the working directory `cwd` (components
from the filesystem root). -/
def Manifest.find (fs : List (List String × List (String × BlobInfo)))
    (cwd : List String) : List (String × BlobInfo) × Option (List String) :=
  findGo fs cwd.reverse

/-- The start directory and its chain of parents up to the root, innermost
first, helper for the specification-side description of discovery. -/
def ancestorsRev : List String → List (List String)
  | [] => [[]]
  | c :: rest => (c :: rest).reverse :: ancestorsRev rest

/-- Follows the spec's words: discovery searches the working directory and
then each ancestor up to the filesystem root; the first directory containing
a manifest file is parsed and returned with its path, and if none contains
one the result is an empty manifest with no path. -/
def findSpec (fs : List (List String × List (String × BlobInfo)))
    (cwd : List String) : List (String × BlobInfo) × Option (List String) :=
  match (ancestorsRev cwd.reverse).findSome?
      (fun dir => (alookup fs dir).map (fun m => (m, dir))) with
  | some (m, dir) => (m, some dir)
  | none => ([], none)

/-! ## Serialization ordering (claim C6) -/

instance : IsTotal (String × BlobInfo) (fun a b => a.1 ≤ b.1) :=
  ⟨fun a b => le_total a.1 b.1⟩

instance : IsTrans (String × BlobInfo) (fun a b => a.1 ≤ b.1) :=
  ⟨fun _ _ _ => le_trans⟩

instance : IsAntisymm (String × BlobInfo) (fun a b => a.1 < b.1) :=
  ⟨fun _ _ h1 h2 => absurd (lt_trans h1 h2) (lt_irrefl _)⟩

theorem sorted_keys_strict (l : List (String × BlobInfo))
    (h1 : l.Sorted (fun a b => a.1 ≤ b.1)) (h2 : (l.map Prod.fst).Nodup) :
    l.Sorted (fun a b => a.1 < b.1) := by
  rw [List.Nodup, List.pairwise_map] at h2
  exact (h1.and h2).imp (fun h => lt_of_le_of_ne h.1 h.2)

/-- Claim C6 asserts that both the name-keyed map entries and a collection's
items are emitted sorted by name.  The second half fails on the code: a
`SerdeCollection` serializes its `item` vector in storage order, items carry
no name, and two collections holding the same items in different vector
orders serialize differently.  Concretely, with two distinct items the
emitted arrays of the two permuted collections differ. -/
theorem serde_items_follow_vector_order :
    SerdeCollection.serializedItems
        ⟨"c", [], AnyRetrieval.url, [⟨[0], 1, []⟩, ⟨[1], 2, []⟩], []⟩ ≠
      SerdeCollection.serializedItems
        ⟨"c", [], AnyRetrieval.url, [⟨[1], 2, []⟩, ⟨[0], 1, []⟩], []⟩ ∧
    List.Perm ([⟨[0], 1, []⟩, ⟨[1], 2, []⟩] : List SerdeItem)
      [⟨[1], 2, []⟩, ⟨[0], 1, []⟩] := by
  constructor
  · decide
  · decide

/-- Claim C6 as amended: the name-keyed manifest map is emitted sorted by
name and independently of the in-memory hash-map entry order (any two
permutations of the same name-distinct entries serialize identically), while
a collection's `item` vector is emitted exactly in its in-memory vector
order (items carry no name and are not sorted). -/
theorem serialize_sorted_map_and_items_in_vector_order :
    (∀ l : List (String × BlobInfo),
      (serialize_map_sorted l).Sorted (fun a b => a.1 ≤ b.1) ∧
      (serialize_map_sorted l).Perm l) ∧
    (∀ l1 l2 : List (String × BlobInfo), l1.Perm l2 → (l1.map Prod.fst).Nodup →
      serialize_map_sorted l1 = serialize_map_sorted l2) ∧
    (∀ sc : SerdeCollection, sc.serializedItems = sc.item) := by
  refine ⟨?_, ?_, ?_⟩
  · intro l
    exact ⟨List.sorted_insertionSort _ l, List.perm_insertionSort _ l⟩
  · intro l1 l2 hperm hnodup
    have hp1 : (serialize_map_sorted l1).Perm l1 := List.perm_insertionSort _ l1
    have hp2 : (serialize_map_sorted l2).Perm l2 := List.perm_insertionSort _ l2
    have hnodup2 : (l2.map Prod.fst).Nodup := ((hperm.map Prod.fst).nodup_iff).mp hnodup
    have hn1 : ((serialize_map_sorted l1).map Prod.fst).Nodup :=
      ((hp1.map Prod.fst).nodup_iff).mpr hnodup
    have hn2 : ((serialize_map_sorted l2).map Prod.fst).Nodup :=
      ((hp2.map Prod.fst).nodup_iff).mpr hnodup2
    exact List.eq_of_perm_of_sorted (hp1.trans (hperm.trans hp2.symm))
      (sorted_keys_strict _ (List.sorted_insertionSort _ l1) hn1)
      (sorted_keys_strict _ (List.sorted_insertionSort _ l2) hn2)
  · intro sc
    rfl

theorem serialize_sorted_map_and_items_in_vector_order_witness :
    serialize_map_sorted [("b", ⟨1, [0], none⟩), ("a", ⟨2, [1], none⟩)] =
      serialize_map_sorted [("a", ⟨2, [1], none⟩), ("b", ⟨1, [0], none⟩)] :=
  serialize_sorted_map_and_items_in_vector_order.2.1
    [("b", ⟨1, [0], none⟩), ("a", ⟨2, [1], none⟩)]
    [("a", ⟨2, [1], none⟩), ("b", ⟨1, [0], none⟩)] (by decide) (by decide)

/-! ## Claim C7: persisted/runtime collection round trip -/

theorem forall2_comp {α β γ : Type} {R : α → β → Prop} {S : β → γ → Prop}
    {T : α → γ → Prop} (h : ∀ a b c, R a b → S b c → T a c) :
    ∀ {l1 : List α} {l2 : List β} {l3 : List γ},
      List.Forall₂ R l1 l2 → List.Forall₂ S l2 l3 → List.Forall₂ T l1 l3 := by
  intro l1 l2 l3 h12
  induction h12 generalizing l3 with
  | nil =>
    intro h23
    cases h23
    exact List.Forall₂.nil
  | cons hab htail ih =>
    intro h23
    cases h23 with
    | cons hbc htail2 => exact List.Forall₂.cons (h _ _ _ hab hbc) (ih htail2)

theorem cloneSerdeItems_some (t : DigestTable) :
    ∀ items : List Item, (∀ i ∈ items, t.id_to_digest i.id ≠ none) →
      ∃ sits : List SerdeItem, cloneSerdeItems items t = some sits ∧
        List.Forall₂ (fun (i : Item) (si : SerdeItem) =>
          t.id_to_digest i.id = some si.digest ∧ si.size = i.size ∧
          si.extra = i.extra) items sits := by
  intro items
  induction items with
  | nil => intro _; exact ⟨[], rfl, List.Forall₂.nil⟩
  | cons i rest ih =>
    intro hv
    obtain ⟨d, hd⟩ : ∃ d, t.id_to_digest i.id = some d := by
      cases hh : t.id_to_digest i.id with
      | some d => exact ⟨d, rfl⟩
      | none => exact absurd hh (hv i (List.mem_cons_self i rest))
    obtain ⟨sits, hs, hf⟩ := ih (fun x hx => hv x (List.mem_cons_of_mem i hx))
    refine ⟨⟨d, i.size, i.extra⟩ :: sits, ?_, ?_⟩
    · simp only [cloneSerdeItems, Item.clone_serde, hd, hs]
    · exact List.Forall₂.cons ⟨hd, rfl, rfl⟩ hf

theorem intoRuntimeItems_spec :
    ∀ (sits : List SerdeItem) (t : DigestTable), t.Inv →
      (intoRuntimeItems sits t).1.Inv ∧
      (∀ i d0, t.id_to_digest i = some d0 →
        (intoRuntimeItems sits t).1.id_to_digest i = some d0) ∧
      List.Forall₂ (fun (si : SerdeItem) (it : Item) =>
        it.size = si.size ∧ it.extra = si.extra ∧
        (intoRuntimeItems sits t).1.id_to_digest it.id = some si.digest)
        sits (intoRuntimeItems sits t).2 := by
  intro sits
  induction sits with
  | nil => exact fun t hinv => ⟨hinv, fun i d0 h => h, List.Forall₂.nil⟩
  | cons s rest ih =>
    intro t hinv
    have hinv1 : (t.digest_to_id s.digest).1.Inv :=
      DigestTable.inv_step t s.digest hinv
    have hhead : (t.digest_to_id s.digest).1.id_to_digest
        (t.digest_to_id s.digest).2 = some s.digest :=
      (hinv1 s.digest _).mp (DigestTable.lookup_after_digest_to_id t s.digest)
    obtain ⟨hinvf, hmono, hforall⟩ := ih (t.digest_to_id s.digest).1 hinv1
    refine ⟨hinvf, ?_, ?_⟩
    · intro i d0 h0
      exact hmono i d0
        (DigestTable.digest_to_id_preserves_id_to_digest t i d0 h0 s.digest)
    · exact List.Forall₂.cons ⟨rfl, rfl, hmono _ _ hhead⟩ hforall

/-- Claim C7: a collection whose item ids are all resolvable in a table `t`
persists totally through `clone_serde` (no item is skipped), and loading the
persisted form with `into_runtime` into any fresh reachable table rebuilds an
equivalent graph: same name, keys, retrieval strategy and metadata, the same
number of items, and item for item the same size, extra fields and — resolved
through the respective tables — the same digest, whatever identifier
numbering the two tables use. -/
theorem collection_serde_roundtrip (c : Collection) (t tfresh : DigestTable)
    (hvalid : ∀ i ∈ c.items, t.id_to_digest i.id ≠ none)
    (hreach : tfresh.Reachable) :
    ∃ sc : SerdeCollection, c.clone_serde t = some sc ∧
      (sc.into_runtime tfresh).2.name = c.name ∧
      (sc.into_runtime tfresh).2.keys = c.keys ∧
      (sc.into_runtime tfresh).2.retrieval = c.retrieval ∧
      (sc.into_runtime tfresh).2.metadata = c.metadata ∧
      (sc.into_runtime tfresh).2.items.length = c.items.length ∧
      List.Forall₂ (fun (i i' : Item) => i'.size = i.size ∧
        i'.extra = i.extra ∧
        (sc.into_runtime tfresh).1.id_to_digest i'.id = t.id_to_digest i.id)
        c.items (sc.into_runtime tfresh).2.items := by
  obtain ⟨sits, hs, hf1⟩ := cloneSerdeItems_some t c.items hvalid
  obtain ⟨hinvf, hmono, hf2⟩ :=
    intoRuntimeItems_spec sits tfresh (DigestTable.reachable_inv hreach)
  refine ⟨⟨c.name, c.keys, Retrieval.clone_any c.retrieval, sits, c.metadata⟩,
    ?_, rfl, rfl, rfl, rfl, ?_, ?_⟩
  · unfold Collection.clone_serde
    rw [hs]
  · have hcomp := forall2_comp (T := fun (i i' : Item) => i'.size = i.size ∧
      i'.extra = i.extra ∧
      (intoRuntimeItems sits tfresh).1.id_to_digest i'.id = t.id_to_digest i.id)
      (fun i si it hR hS => ⟨hS.1.trans hR.2.1, hS.2.1.trans hR.2.2,
        hS.2.2.trans hR.1.symm⟩) hf1 hf2
    exact hcomp.length_eq.symm
  · exact forall2_comp (fun i si it hR hS => ⟨hS.1.trans hR.2.1,
      hS.2.1.trans hR.2.2, hS.2.2.trans hR.1.symm⟩) hf1 hf2

theorem collection_serde_roundtrip_witness :
    (∀ i ∈ (⟨"c", ["k"], AnyRetrieval.url, [⟨0, 5, [("u", "v")]⟩], []⟩ :
        Collection).items,
      (DigestTable.new.digest_to_id [7]).1.id_to_digest i.id ≠ none) ∧
    DigestTable.Reachable DigestTable.new ∧
    (∃ sc : SerdeCollection,
      Collection.clone_serde ⟨"c", ["k"], AnyRetrieval.url, [⟨0, 5, [("u", "v")]⟩], []⟩
          (DigestTable.new.digest_to_id [7]).1 = some sc ∧
      (sc.into_runtime DigestTable.new).2.name = "c" ∧
      (sc.into_runtime DigestTable.new).2.keys = ["k"] ∧
      (sc.into_runtime DigestTable.new).2.retrieval = AnyRetrieval.url ∧
      (sc.into_runtime DigestTable.new).2.metadata = [] ∧
      (sc.into_runtime DigestTable.new).2.items.length = 1 ∧
      List.Forall₂ (fun (i i' : Item) => i'.size = i.size ∧
        i'.extra = i.extra ∧
        (sc.into_runtime DigestTable.new).1.id_to_digest i'.id =
          (DigestTable.new.digest_to_id [7]).1.id_to_digest i.id)
        [⟨0, 5, [("u", "v")]⟩] (sc.into_runtime DigestTable.new).2.items) :=
  ⟨by decide, DigestTable.Reachable.new,
    collection_serde_roundtrip
      ⟨"c", ["k"], AnyRetrieval.url, [⟨0, 5, [("u", "v")]⟩], []⟩
      (DigestTable.new.digest_to_id [7]).1 DigestTable.new (by decide)
      DigestTable.Reachable.new⟩

/-! ## Claim C9: manifest upsert -/

/-- Claim C9: `insert_or_update` is a name-keyed upsert: afterwards a lookup
of the name yields the new info while every other name's lookup is
unchanged; and the emitted notification is exactly one `updating` note when
an entry of the name existed with different content, exactly one `unchanged`
note when it existed with identical content, and nothing when the name was
absent. -/
theorem insert_or_update_upsert (blobs : List (String × BlobInfo))
    (name : String) (binfo : BlobInfo) :
    alookup (Manifest.insert_or_update blobs name binfo).1 name = some binfo ∧
    (∀ other, other ≠ name →
      alookup (Manifest.insert_or_update blobs name binfo).1 other =
        alookup blobs other) ∧
    (Manifest.insert_or_update blobs name binfo).2 =
      (match alookup blobs name with
       | some old =>
         [if old = binfo then ManifestNote.unchanged name
          else ManifestNote.updating name]
       | none => []) := by
  cases h : alookup blobs name with
  | some old =>
    simp only [Manifest.insert_or_update, h]
    refine ⟨alookup_ainsert_self _ _ _,
      fun other hne => alookup_ainsert_ne _ _ _ _ hne, ?_⟩
    by_cases heq : old = binfo <;> simp [heq]
  | none =>
    simp only [Manifest.insert_or_update, h]
    exact ⟨alookup_ainsert_self _ _ _,
      fun other hne => alookup_ainsert_ne _ _ _ _ hne, trivial⟩

theorem insert_or_update_upsert_witness :
    alookup (Manifest.insert_or_update [("a", ⟨1, [0], none⟩)] "a"
        ⟨2, [1], none⟩).1 "a" = some ⟨2, [1], none⟩ ∧
    alookup (Manifest.insert_or_update [("a", ⟨1, [0], none⟩)] "a"
        ⟨2, [1], none⟩).1 "z" = alookup [("a", ⟨1, [0], none⟩)] "z" ∧
    (Manifest.insert_or_update [("a", ⟨1, [0], none⟩)] "a" ⟨2, [1], none⟩).2 =
      [ManifestNote.updating "a"] :=
  have h := insert_or_update_upsert [("a", ⟨1, [0], none⟩)] "a" ⟨2, [1], none⟩
  ⟨h.1, h.2.1 "z" (by decide), by
    have h3 := h.2.2
    simpa using h3⟩

/-! ## Claim C8: manifest discovery -/

theorem findGo_eq_spec (fs : List (List String × List (String × BlobInfo))) :
    ∀ r : List String,
      findGo fs r =
        (match (ancestorsRev r).findSome?
            (fun dir => (alookup fs dir).map (fun m => (m, dir))) with
         | some (m, dir) => (m, some dir)
         | none => ([], none)) := by
  intro r
  induction r with
  | nil =>
    cases h : alookup fs ([] : List String) with
    | some m => simp [findGo, ancestorsRev, h]
    | none => simp [findGo, ancestorsRev, h]
  | cons c rest ih =>
    cases h : alookup fs (rest.reverse ++ [c]) with
    | some m => simp [findGo, ancestorsRev, List.findSome?_cons, h]
    | none => simp [findGo, ancestorsRev, List.findSome?_cons, h, ih]

/-- Claim C8: discovery equals its specification — starting at the working
directory and walking parent by parent to the filesystem root, the first
directory containing a `.blobs.toml` has its parsed contents returned
together with its path, and when no directory on that chain contains one the
result is the empty manifest with no path (the model writes no file: `findGo`
only reads the store). -/
theorem manifest_find_first_ancestor
    (fs : List (List String × List (String × BlobInfo))) (cwd : List String) :
    Manifest.find fs cwd = findSpec fs cwd := by
  unfold Manifest.find findSpec
  exact findGo_eq_spec fs cwd.reverse

end Blobman
